import Mathlib

/-!
Shallow embedding of the facility search service
(`src/services/facility.service.ts`, class `FacilityService`).

JavaScript data structures are modelled as follows:
* `Map k v` (insertion-ordered, `set` replaces in place) is an association
  list `List (k × v)`; `mapGet` is `Map.get`, `mapSet` is `Map.set`.
* `Set string` (insertion-ordered, `add` skips duplicates) is a
  duplicate-free `List String`; `addSetList` is `Set.add`.
* `string.toLowerCase()` is a per-character map with `Char.toLower`
  (the facility data is basic latin).
* `string.split(/\s+/).filter(w => w.length > 0)` is `words` on the
  character list.
* `a.localeCompare(b)` is modelled as codepoint-lexicographic comparison
  returning -1/0/1 (`strCmp`).
* `Array.prototype.sort` (stable in modern engines) is modelled by the
  stable `List.insertionSort`.
* The geographic location field of a facility is omitted: it is
  floating-point data never read by the index or the query logic.
-/

/-- Whitespace test used by the regular expression `\s` in the source. -/
def isWs (c : Char) : Bool := c.isWhitespace

/-- Embedding of `string.toLowerCase()`. -/
def toLowerStr (s : String) : String := ⟨s.data.map Char.toLower⟩

/-- Embedding of `string.trim()` on character lists. -/
def trimList (l : List Char) : List Char :=
  ((l.dropWhile isWs).reverse.dropWhile isWs).reverse

/-- Embedding of `string.trim()`. -/
def trimStr (s : String) : String := ⟨trimList s.data⟩

/-- Accumulator pass of `words`: splits a character list at whitespace,
dropping empty fragments, like `split(/\s+/).filter(w => w.length > 0)`. -/
def wordsAux : List Char → List Char → List (List Char)
  | [], acc => if acc = [] then [] else [acc.reverse]
  | c :: cs, acc =>
    if isWs c then
      if acc = [] then wordsAux cs [] else acc.reverse :: wordsAux cs []
    else wordsAux cs (c :: acc)

/-- Maximal whitespace-free runs of a character list. -/
def words (l : List Char) : List (List Char) := wordsAux l []

/-- Embedding of `s.split(/\s+/).filter(t => t.length > 0)`. -/
def splitTokens (s : String) : List String := (words s.data).map (fun w => ⟨w⟩)

/-- Strict codepoint-lexicographic order on character lists, as an
executable Bool. -/
def lexLt : List Char → List Char → Bool
  | [], [] => false
  | [], _ :: _ => true
  | _ :: _, [] => false
  | a :: as, b :: bs =>
    if a = b then lexLt as bs else decide (a.toNat < b.toNat)

/-- Model of `a.localeCompare(b)`: the default locale comparison is
modelled as codepoint-lexicographic order, returning -1, 0 or 1. -/
def strCmp (a b : String) : Int :=
  if a = b then 0 else if lexLt a.data b.data then -1 else 1

/-- Embedding of `Set.add` on an insertion-ordered, duplicate-free list. -/
def addSetList (l : List String) (x : String) : List String :=
  if x ∈ l then l else l ++ [x]

/-- Embedding of `Map.get` on an association list. -/
def mapGet {β : Type} : List (String × β) → String → Option β
  | [], _ => none
  | (k, v) :: m, k' => if k' = k then some v else mapGet m k'

/-- Embedding of `Map.set`: replaces the value in place when the key is
present (keeping its position), appends a new entry otherwise. -/
def mapSet {β : Type} : List (String × β) → String → β → List (String × β)
  | [], k, v => [(k, v)]
  | (k', v') :: m, k, v =>
    if k' = k then (k, v) :: m else (k', v') :: mapSet m k v

/-- Embedding of the posting-map update idiom of `buildIndexes`:
`if (!map.has(k)) map.set(k, new Set()); map.get(k)!.add(id)`. -/
def addPosting : List (String × List String) → String → String →
    List (String × List String)
  | [], k, id => [(k, [id])]
  | (k', v) :: m, k, id =>
    if k' = k then (k', addSetList v id) :: m else (k', v) :: addPosting m k id

/-- Keys of an association list, in insertion order. -/
def mapKeys {β : Type} (m : List (String × β)) : List String := m.map (·.1)

/-- Facility record (`Facility` in `src/types/facility.ts`); the amenity
list is the field named `facilities` in the source. The floating-point
`location` field is omitted (never read by the indexing logic). -/
structure Facility where
  id : String
  name : String
  address : String
  facilities : List String
  deriving DecidableEq, Repr

/-- Search projection (`FacilitySearchResult`). -/
structure FacilitySearchResult where
  id : String
  name : String
  address : String
  deriving DecidableEq, Repr

/-- State of a `FacilityService` instance: the record sequence plus the
three indexes built by `buildIndexes`. -/
structure FacilityService where
  facilities : List Facility
  facilityIndex : List (String × Facility)
  nameIndex : List (String × List String)
  amenityIndex : List (String × List String)
  deriving DecidableEq, Repr

/-- Embedding of `tokenizeName`: lowercase, split on whitespace, drop
empty fragments. -/
def tokenizeName (name : String) : List String :=
  splitTokens (toLowerStr name)

/-- One iteration of the `buildIndexes` loop for a single facility. -/
def buildStep (s : FacilityService) (f : Facility) : FacilityService :=
  { s with
    facilityIndex := mapSet s.facilityIndex f.id f
    nameIndex :=
      (tokenizeName f.name).foldl (fun m t => addPosting m t f.id) s.nameIndex
    amenityIndex :=
      f.facilities.foldl (fun m a => addPosting m (toLowerStr a) f.id)
        s.amenityIndex }

/-- Embedding of the constructor plus `buildIndexes`: stores the record
sequence and folds the indexing loop over it. -/
def buildIndexes (facs : List Facility) : FacilityService :=
  facs.foldl buildStep ⟨facs, [], [], []⟩

/-- Embedding of `getCount`. -/
def getCount (s : FacilityService) : Nat := s.facilities.length

/-- Embedding of `getById`: `if (!id) return null; return
this.facilityIndex.get(id) || null` — the identifier is used verbatim. -/
def getById (s : FacilityService) (id : String) : Option Facility :=
  if id = "" then none else mapGet s.facilityIndex id

/-- Embedding of the sort comparator of `searchByName` (lines 109-126):
exact lowercase match first, then lowercase names starting with the
query, then `localeCompare` on the display names. -/
def cmpResults (q : String) (a b : FacilitySearchResult) : Int :=
  if toLowerStr a.name = q then -1
  else if toLowerStr b.name = q then 1
  else if q.data <+: (toLowerStr a.name).data ∧
      ¬ q.data <+: (toLowerStr b.name).data then -1
  else if ¬ q.data <+: (toLowerStr a.name).data ∧
      q.data <+: (toLowerStr b.name).data then 1
  else strCmp a.name b.name

/-- One step of the scan over `nameIndex.entries()` in `searchByName`
(lines 88-92): entries differing from the query token whose token starts
with it contribute their posting set. -/
def scanStep (qt : String) (acc : List String) (e : String × List String) :
    List String :=
  if e.1 ≠ qt ∧ qt.data <+: e.1.data then e.2.foldl addSetList acc else acc

/-- Matching-id collection of `searchByName` for one query token: the
direct `nameIndex.get` lookup (lines 80-83) followed by the full scan of
`nameIndex.entries()` (lines 88-92). -/
def collectForToken (nidx : List (String × List String)) (acc : List String)
    (qt : String) : List String :=
  let acc1 :=
    match mapGet nidx qt with
    | some ids => ids.foldl addSetList acc
    | none => acc
  nidx.foldl (scanStep qt) acc1

/-- Matching-id set of `searchByName` across all query tokens. -/
def collectMatches (nidx : List (String × List String)) (qts : List String) :
    List String :=
  qts.foldl (collectForToken nidx) []

/-- Conversion of matched identifiers to result projections (lines
96-106 and 186-196): ids missing from `facilityIndex` are skipped. -/
def projectResults (s : FacilityService) (ids : List String) :
    List FacilitySearchResult :=
  ids.filterMap fun id =>
    (mapGet s.facilityIndex id).map fun f => ⟨f.id, f.name, f.address⟩

/-- Embedding of `searchByName` (lines 67-127); the local variables
`normalizedQuery`, `queryTokens`, `matchingIds` and `results` of the
source are inlined. -/
def searchByName (s : FacilityService) (query : String) :
    List FacilitySearchResult :=
  if query = "" ∨ trimStr query = "" then []
  else
    List.insertionSort
      (fun a b => cmpResults (trimStr (toLowerStr query)) a b ≤ 0)
      (projectResults s
        (collectMatches s.nameIndex (splitTokens (trimStr (toLowerStr query)))))

/-- Embedding of the amenity intersection loop of `filterByAmenities`
(lines 166-183). The `for (const id of matchingIds) { if
(!amenityIds.has(id)) matchingIds.delete(id) }` step deletes from the
set while iterating it; per JavaScript `Set` iteration semantics the
surviving elements are exactly `matching.filter (· ∈ ids)` in order. -/
def intersectLoop (s : FacilityService) :
    List String → List String → List String
  | matching, [] => matching
  | matching, lab :: rest =>
    match mapGet s.amenityIndex lab with
    | none => []
    | some ids =>
      if ids = [] then []
      else
        let m := matching.filter fun id => decide (id ∈ ids)
        if m = [] then [] else intersectLoop s m rest

/-- Embedding of `filterByAmenities` (lines 148-199). -/
def filterByAmenities (s : FacilityService) (amenities : List String) :
    List FacilitySearchResult :=
  match amenities with
  | [] => []
  | a0 :: rest =>
    match mapGet s.amenityIndex (toLowerStr a0) with
    | none => []
    | some cand =>
      if cand = [] then []
      else projectResults s (intersectLoop s cand (rest.map toLowerStr))

/-- Cost model of the `searchByName` prefix lookup: the number of
iterations of the scan over `nameIndex.entries()` (lines 88-92), which
runs once per entry for every query token. -/
def searchScanCount (s : FacilityService) (query : String) : Nat :=
  if query = "" ∨ trimStr query = "" then 0
  else
    (splitTokens (trimStr (toLowerStr query))).foldl
      (fun acc _ => acc + s.nameIndex.length) 0

/-- Modelled from the claim C1 wording: the ranking order the spec
demands — tiers (exact normalized match, normalized-prefix match,
others), then ascending display name, ties broken by ascending
identifier. Used only to compare the specified order with the
implemented comparator. -/
def specRankTier (q : String) (r : FacilitySearchResult) : Nat :=
  if toLowerStr r.name = q then 0
  else if q.data <+: (toLowerStr r.name).data then 1
  else 2

/-- Modelled from the claim C1 wording: the strict order demanded by the
spec ranking sentence. -/
def specRankLt (q : String) (a b : FacilitySearchResult) : Prop :=
  specRankTier q a < specRankTier q b ∨
    (specRankTier q a = specRankTier q b ∧
      (lexLt a.name.data b.name.data = true ∨
        (a.name = b.name ∧ lexLt a.id.data b.id.data = true)))

instance (q : String) (a b : FacilitySearchResult) :
    Decidable (specRankLt q a b) := by
  unfold specRankLt; infer_instance

/- State-threaded embedding of the three query operations, used for the
frame claim: each `Map`/`Set` read of the source is a step receiving the
service state and returning it alongside the value read, so that the
final state records every mutation the operation performs on the
service. -/

/-- State-threaded read of `facilityIndex.get`. -/
def getFacilityST (s : FacilityService) (id : String) :
    FacilityService × Option Facility :=
  (s, mapGet s.facilityIndex id)

/-- State-threaded embedding of `getById`. -/
def getByIdST (s : FacilityService) (id : String) :
    FacilityService × Option Facility :=
  if id = "" then (s, none)
  else
    match getFacilityST s id with
    | (s1, r) => (s1, r)

/-- State-threaded projection of matched ids to results. -/
def projectResultsST : FacilityService → List String →
    FacilityService × List FacilitySearchResult
  | s, [] => (s, [])
  | s, id :: ids =>
    match getFacilityST s id with
    | (s1, none) => projectResultsST s1 ids
    | (s1, some f) =>
      match projectResultsST s1 ids with
      | (s2, rs) => (s2, ⟨f.id, f.name, f.address⟩ :: rs)

/-- State-threaded embedding of `searchByName`. -/
def searchByNameST (s : FacilityService) (query : String) :
    FacilityService × List FacilitySearchResult :=
  if query = "" ∨ trimStr query = "" then (s, [])
  else
    match
      projectResultsST s
        (collectMatches s.nameIndex (splitTokens (trimStr (toLowerStr query))))
    with
    | (s1, results) =>
      (s1,
        List.insertionSort
          (fun a b => cmpResults (trimStr (toLowerStr query)) a b ≤ 0) results)

/-- State-threaded read of `amenityIndex.get`. -/
def getAmenityST (s : FacilityService) (lab : String) :
    FacilityService × Option (List String) :=
  (s, mapGet s.amenityIndex lab)

/-- State-threaded embedding of the amenity intersection loop: the
deletions hit only the local matching set, never the state. -/
def intersectLoopST : FacilityService → List String → List String →
    FacilityService × List String
  | s, matching, [] => (s, matching)
  | s, matching, lab :: rest =>
    match getAmenityST s lab with
    | (s1, none) => (s1, [])
    | (s1, some ids) =>
      if ids = [] then (s1, [])
      else
        let m := matching.filter fun id => decide (id ∈ ids)
        if m = [] then (s1, []) else intersectLoopST s1 m rest

/-- State-threaded embedding of `filterByAmenities`. -/
def filterByAmenitiesST (s : FacilityService) (amenities : List String) :
    FacilityService × List FacilitySearchResult :=
  match amenities with
  | [] => (s, [])
  | a0 :: rest =>
    match getAmenityST s (toLowerStr a0) with
    | (s1, none) => (s1, [])
    | (s1, some cand) =>
      if cand = [] then (s1, [])
      else
        match intersectLoopST s1 cand (rest.map toLowerStr) with
        | (s2, matching) => projectResultsST s2 matching

/-! Helper lemmas: characters and lexicographic order. -/

theorem char_toNat_inj {c d : Char} (h : c.toNat = d.toNat) : c = d :=
  Char.ext (UInt32.toNat.inj h)

theorem charOfNat_toNat {n : Nat} (h : n < 55296) : (Char.ofNat n).toNat = n := by
  rw [Char.ofNat, dif_pos (Or.inl h)]
  simp [Char.ofNatAux, Char.toNat, UInt32.toNat]

theorem toLower_idem (c : Char) : (Char.toLower c).toLower = Char.toLower c := by
  unfold Char.toLower
  by_cases h : c.toNat ≥ 65 ∧ c.toNat ≤ 90
  · rw [if_pos h]
    have hv : (Char.ofNat (c.toNat + 32)).toNat = c.toNat + 32 :=
      charOfNat_toNat (by omega)
    rw [if_neg]
    omega
  · rw [if_neg h, if_neg h]

theorem lexLt_irrefl : ∀ l : List Char, lexLt l l = false
  | [] => rfl
  | _ :: as => by simp [lexLt, lexLt_irrefl as]

theorem lexLt_trans :
    ∀ {a b c : List Char}, lexLt a b = true → lexLt b c = true →
      lexLt a c = true
  | [], [], _, h1, _ => by simp [lexLt] at h1
  | [], _ :: _, [], _, h2 => by simp [lexLt] at h2
  | [], _ :: _, _ :: _, _, _ => rfl
  | _ :: _, [], _, h1, _ => by simp [lexLt] at h1
  | _ :: _, _ :: _, [], _, h2 => by simp [lexLt] at h2
  | x :: xs, y :: ys, z :: zs, h1, h2 => by
    by_cases hxy : x = y
    · subst hxy
      by_cases hyz : x = z
      · subst hyz
        simp only [lexLt, if_pos rfl] at h1 h2 ⊢
        exact lexLt_trans h1 h2
      · simpa [lexLt, hyz] using h2
    · by_cases hyz : y = z
      · subst hyz
        simpa [lexLt, hxy] using h1
      · simp only [lexLt, if_neg hxy, if_neg hyz, decide_eq_true_eq] at h1 h2
        have hxz : x.toNat < z.toNat := Nat.lt_trans h1 h2
        have : x ≠ z := fun he => by subst he; omega
        simp [lexLt, this, hxz]

theorem lexLt_eq_of_not_lt :
    ∀ {a b : List Char}, lexLt a b = false → lexLt b a = false → a = b
  | [], [], _, _ => rfl
  | [], _ :: _, h1, _ => by simp [lexLt] at h1
  | _ :: _, [], _, h2 => by simp [lexLt] at h2
  | x :: xs, y :: ys, h1, h2 => by
    by_cases hxy : x = y
    · subst hxy
      simp only [lexLt, if_pos rfl] at h1 h2
      rw [lexLt_eq_of_not_lt h1 h2]
    · simp only [lexLt, if_neg hxy, if_neg (Ne.symm hxy),
        decide_eq_false_iff_not, Nat.not_lt] at h1 h2
      exact absurd (char_toNat_inj (Nat.le_antisymm h2 h1)) hxy

theorem strCmp_nonpos_iff {a b : String} :
    strCmp a b ≤ 0 ↔ a = b ∨ lexLt a.data b.data = true := by
  unfold strCmp
  by_cases h1 : a = b
  · simp [h1]
  · by_cases h2 : lexLt a.data b.data = true
    · simp [h1, h2]
    · simp [h1, h2]

theorem strCmp_self (a : String) : strCmp a a = 0 := by simp [strCmp]

theorem strCmp_trans {a b c : String} (h1 : strCmp a b ≤ 0)
    (h2 : strCmp b c ≤ 0) : strCmp a c ≤ 0 := by
  rw [strCmp_nonpos_iff] at h1 h2 ⊢
  rcases h1 with rfl | h1
  · exact h2
  · rcases h2 with rfl | h2
    · exact Or.inr h1
    · exact Or.inr (lexLt_trans h1 h2)

theorem strCmp_total (a b : String) : strCmp a b ≤ 0 ∨ strCmp b a ≤ 0 := by
  rw [strCmp_nonpos_iff, strCmp_nonpos_iff]
  by_cases he : a = b
  · exact Or.inl (Or.inl he)
  · by_cases hl : lexLt a.data b.data = true
    · exact Or.inl (Or.inr hl)
    · by_cases hr : lexLt b.data a.data = true
      · exact Or.inr (Or.inr hr)
      · exact absurd
          (String.ext (lexLt_eq_of_not_lt (Bool.eq_false_iff.mpr hl)
            (Bool.eq_false_iff.mpr hr))) he

/-! Helper lemmas: insertion-ordered sets and association maps. -/

theorem mem_addSetList {l : List String} {x y : String} :
    x ∈ addSetList l y ↔ x ∈ l ∨ x = y := by
  unfold addSetList
  split_ifs with h
  · constructor
    · exact Or.inl
    · rintro (hx | rfl)
      · exact hx
      · exact h
  · simp

theorem nodup_addSetList {l : List String} (h : l.Nodup) (y : String) :
    (addSetList l y).Nodup := by
  unfold addSetList
  split_ifs with hm
  · exact h
  · simpa [List.nodup_append, h] using hm

theorem mem_foldl_addSetList {ids : List String} :
    ∀ {acc x}, x ∈ ids.foldl addSetList acc ↔ x ∈ acc ∨ x ∈ ids := by
  induction ids with
  | nil => simp
  | cons i is ih =>
    intro acc x
    simp only [List.foldl_cons, ih, mem_addSetList, List.mem_cons]
    tauto

theorem nodup_foldl_addSetList {ids : List String} :
    ∀ {acc : List String}, acc.Nodup → (ids.foldl addSetList acc).Nodup := by
  induction ids with
  | nil => exact fun h => h
  | cons i is ih => exact fun h => ih (nodup_addSetList h i)

theorem mapGet_cons {β : Type} {k' k : String} {v : β}
    {m : List (String × β)} :
    mapGet ((k, v) :: m) k' = if k' = k then some v else mapGet m k' := rfl

theorem mapGet_mem {β : Type} :
    ∀ {m : List (String × β)} {k : String} {v : β},
      mapGet m k = some v → (k, v) ∈ m
  | [], _, _, h => by simp [mapGet] at h
  | (k0, v0) :: m, k, v, h => by
    rw [mapGet_cons] at h
    split_ifs at h with he
    · cases h; cases he; exact List.mem_cons_self _ _
    · exact List.mem_cons_of_mem _ (mapGet_mem h)

theorem mapGet_mapSet_self {m : List (String × Facility)} {k : String}
    {v : Facility} : mapGet (mapSet m k v) k = some v := by
  induction m with
  | nil => simp [mapSet, mapGet]
  | cons p m ih =>
    obtain ⟨k0, v0⟩ := p
    unfold mapSet
    split_ifs with h
    · simp [mapGet]
    · rw [mapGet_cons, if_neg (by exact fun he => h (by rw [he]) )]
      exact ih

theorem mapGet_mapSet_ne {m : List (String × Facility)} {k k' : String}
    {v : Facility} (h : k' ≠ k) : mapGet (mapSet m k v) k' = mapGet m k' := by
  induction m with
  | nil => simp [mapSet, mapGet_cons, mapGet, h]
  | cons p m ih =>
    obtain ⟨k0, v0⟩ := p
    unfold mapSet
    split_ifs with h0
    · subst h0
      rw [mapGet_cons, mapGet_cons, if_neg h, if_neg h]
    · rw [mapGet_cons, mapGet_cons]
      split_ifs with h1
      · rfl
      · exact ih

theorem mapGet_addPosting {m : List (String × List String)}
    {k k' id : String} :
    mapGet (addPosting m k id) k' =
      if k' = k then some (addSetList ((mapGet m k).getD []) id)
      else mapGet m k' := by
  induction m with
  | nil =>
    simp only [addPosting, mapGet_cons, mapGet]
    split_ifs <;> simp [addSetList]
  | cons p m ih =>
    obtain ⟨k0, v0⟩ := p
    by_cases h0 : k0 = k
    · subst h0
      have ha : addPosting ((k0, v0) :: m) k0 id = (k0, addSetList v0 id) :: m := by
        simp [addPosting]
      rw [ha]
      by_cases h1 : k' = k0
      · simp [mapGet_cons, h1]
      · simp [mapGet_cons, h1]
    · have h0s : ¬ k = k0 := fun he => h0 he.symm
      have ha : addPosting ((k0, v0) :: m) k id = (k0, v0) :: addPosting m k id := by
        simp [addPosting, h0]
      rw [ha]
      by_cases h1 : k' = k0
      · have h1k : ¬ k' = k := fun he => h0 ((h1.symm.trans he))
        simp [mapGet_cons, h1, h1k, h0, h0s]
      · simp [mapGet_cons, h1, h0s, ih]

/-! Helper lemmas: trimming and tokenization. -/

theorem map_self_of_fixed {α : Type} {f : α → α} :
    ∀ {l : List α}, (∀ a ∈ l, f a = a) → l.map f = l
  | [], _ => rfl
  | a :: l, h => by
    rw [List.map_cons, h a (List.mem_cons_self a l),
      map_self_of_fixed fun b hb => h b (List.mem_cons_of_mem a hb)]

theorem dropWhile_of_forall_not {l : List Char}
    (h : ∀ c ∈ l, isWs c = false) : l.dropWhile isWs = l := by
  cases l with
  | nil => rfl
  | cons c cs =>
    rw [List.dropWhile_cons, if_neg]
    simp [h c (List.mem_cons_self c cs)]

theorem trimList_eq_self {l : List Char} (h : ∀ c ∈ l, isWs c = false) :
    trimList l = l := by
  unfold trimList
  rw [dropWhile_of_forall_not h,
    dropWhile_of_forall_not fun c hc => h c (List.mem_reverse.mp hc),
    List.reverse_reverse]

theorem wordsAux_mem :
    ∀ {l acc t}, (∀ c ∈ acc, isWs c = false) → t ∈ wordsAux l acc →
      t ≠ [] ∧ ∀ c ∈ t, isWs c = false ∧ (c ∈ acc ∨ c ∈ l)
  | [], acc, t, hacc, ht => by
    unfold wordsAux at ht
    split_ifs at ht with h0
    · simp at ht
    · rw [List.mem_singleton] at ht
      subst ht
      refine ⟨by simpa using h0, fun c hc => ?_⟩
      rw [List.mem_reverse] at hc
      exact ⟨hacc c hc, Or.inl hc⟩
  | x :: xs, acc, t, hacc, ht => by
    unfold wordsAux at ht
    split_ifs at ht with hx h0
    · subst h0
      obtain ⟨hne, hch⟩ := wordsAux_mem (by simp) ht
      exact ⟨hne, fun c hc => ⟨(hch c hc).1,
        Or.inr (List.mem_cons_of_mem x (((hch c hc).2).resolve_left (by simp)))⟩⟩
    · rcases List.mem_cons.mp ht with rfl | ht
      · refine ⟨by simpa using h0, fun c hc => ?_⟩
        rw [List.mem_reverse] at hc
        exact ⟨hacc c hc, Or.inl hc⟩
      · obtain ⟨hne, hch⟩ := wordsAux_mem (by simp) ht
        exact ⟨hne, fun c hc => ⟨(hch c hc).1,
          Or.inr (List.mem_cons_of_mem x (((hch c hc).2).resolve_left (by simp)))⟩⟩
    · obtain ⟨hne, hch⟩ := wordsAux_mem
        (fun c hc => by
          rcases List.mem_cons.mp hc with rfl | hc
          · simpa using hx
          · exact hacc c hc) ht
      refine ⟨hne, fun c hc => ⟨(hch c hc).1, ?_⟩⟩
      rcases (hch c hc).2 with hca | hcl
      · rcases List.mem_cons.mp hca with rfl | hca
        · exact Or.inr (List.mem_cons_self c xs)
        · exact Or.inl hca
      · exact Or.inr (List.mem_cons_of_mem x hcl)

theorem wordsAux_all_nonWs :
    ∀ {l : List Char} (acc : List Char), (∀ c ∈ l, isWs c = false) →
      wordsAux l acc =
        if acc = [] ∧ l = [] then [] else [acc.reverse ++ l]
  | [], acc, _ => by
    unfold wordsAux
    by_cases h : acc = [] <;> simp [h]
  | x :: xs, acc, h => by
    unfold wordsAux
    rw [if_neg (by simp [h x (List.mem_cons_self x xs)]),
      wordsAux_all_nonWs (x :: acc) fun c hc => h c (List.mem_cons_of_mem x hc)]
    simp

theorem words_all_nonWs {l : List Char} (hne : l ≠ [])
    (h : ∀ c ∈ l, isWs c = false) : words l = [l] := by
  unfold words
  rw [wordsAux_all_nonWs [] h]
  simp [hne]

theorem mem_words {l t : List Char} (h : t ∈ words l) :
    t ≠ [] ∧ ∀ c ∈ t, isWs c = false ∧ c ∈ l := by
  obtain ⟨hne, hch⟩ := wordsAux_mem (by simp) h
  exact ⟨hne, fun c hc => ⟨(hch c hc).1, ((hch c hc).2).resolve_left (by simp)⟩⟩

theorem tokenizeName_data {name t : String} (h : t ∈ tokenizeName name) :
    t.data ∈ words (toLowerStr name).data := by
  obtain ⟨w, hw, rfl⟩ := List.mem_map.mp h
  exact hw

theorem token_chars {name t : String} (ht : t ∈ tokenizeName name) :
    t.data ≠ [] ∧ ∀ c ∈ t.data,
      isWs c = false ∧ Char.toLower c = c := by
  obtain ⟨hne, hch⟩ := mem_words (tokenizeName_data ht)
  refine ⟨hne, fun c hc => ⟨(hch c hc).1, ?_⟩⟩
  have : c ∈ (toLowerStr name).data := (hch c hc).2
  obtain ⟨c0, _, rfl⟩ := List.mem_map.mp this
  exact toLower_idem c0

/-! Helper lemmas: projections of the built service state. -/

theorem foldl_buildStep_facilities :
    ∀ (l : List Facility) (s : FacilityService),
      (l.foldl buildStep s).facilities = s.facilities
  | [], _ => rfl
  | f :: l, s => by
    rw [List.foldl_cons, foldl_buildStep_facilities l]
    rfl

theorem foldl_buildStep_facilityIndex :
    ∀ (l : List Facility) (s : FacilityService),
      (l.foldl buildStep s).facilityIndex =
        l.foldl (fun m f => mapSet m f.id f) s.facilityIndex
  | [], _ => rfl
  | f :: l, s => by
    rw [List.foldl_cons, foldl_buildStep_facilityIndex l, List.foldl_cons]
    rfl

theorem foldl_buildStep_nameIndex :
    ∀ (l : List Facility) (s : FacilityService),
      (l.foldl buildStep s).nameIndex =
        l.foldl
          (fun m f =>
            (tokenizeName f.name).foldl (fun m2 t => addPosting m2 t f.id) m)
          s.nameIndex
  | [], _ => rfl
  | f :: l, s => by
    rw [List.foldl_cons, foldl_buildStep_nameIndex l, List.foldl_cons]
    rfl

theorem foldl_buildStep_amenityIndex :
    ∀ (l : List Facility) (s : FacilityService),
      (l.foldl buildStep s).amenityIndex =
        l.foldl
          (fun m f =>
            f.facilities.foldl (fun m2 a => addPosting m2 (toLowerStr a) f.id) m)
          s.amenityIndex
  | [], _ => rfl
  | f :: l, s => by
    rw [List.foldl_cons, foldl_buildStep_amenityIndex l, List.foldl_cons]
    rfl

theorem buildIndexes_facilities (facs : List Facility) :
    (buildIndexes facs).facilities = facs :=
  foldl_buildStep_facilities facs _

/-! Helper lemmas: the identifier index. -/

theorem fidx_fold_sound :
    ∀ {l : List Facility} {m0 : List (String × Facility)} {id : String}
      {f : Facility},
      mapGet (l.foldl (fun m g => mapSet m g.id g) m0) id = some f →
        (f ∈ l ∧ f.id = id) ∨ mapGet m0 id = some f
  | [], _, _, _, h => Or.inr h
  | g :: l, m0, id, f, h => by
    rw [List.foldl_cons] at h
    rcases fidx_fold_sound h with ⟨hf, hid⟩ | hbase
    · exact Or.inl ⟨List.mem_cons_of_mem g hf, hid⟩
    · by_cases he : id = g.id
      · subst he
        rw [mapGet_mapSet_self] at hbase
        cases hbase
        exact Or.inl ⟨List.mem_cons_self g l, rfl⟩
      · rw [mapGet_mapSet_ne he] at hbase
        exact Or.inr hbase

theorem fidx_fold_isSome_mono :
    ∀ {l : List Facility} {m0 : List (String × Facility)} {id : String},
      (mapGet m0 id).isSome →
        (mapGet (l.foldl (fun m g => mapSet m g.id g) m0) id).isSome
  | [], _, _, h => h
  | g :: l, m0, id, h => by
    rw [List.foldl_cons]
    refine fidx_fold_isSome_mono ?_
    by_cases he : id = g.id
    · subst he; rw [mapGet_mapSet_self]; rfl
    · rw [mapGet_mapSet_ne he]; exact h

theorem fidx_fold_isSome_of_mem :
    ∀ {l : List Facility} {m0 : List (String × Facility)} {f : Facility},
      f ∈ l → (mapGet (l.foldl (fun m g => mapSet m g.id g) m0) f.id).isSome
  | [], _, _, h => absurd h (List.not_mem_nil _)
  | g :: l, m0, f, h => by
    rw [List.foldl_cons]
    rcases List.mem_cons.mp h with rfl | h
    · exact fidx_fold_isSome_mono (by rw [mapGet_mapSet_self]; rfl)
    · exact fidx_fold_isSome_of_mem h

theorem build_fidx_sound {facs : List Facility} {id : String} {f : Facility}
    (h : mapGet (buildIndexes facs).facilityIndex id = some f) :
    f ∈ facs ∧ f.id = id := by
  rw [buildIndexes, foldl_buildStep_facilityIndex] at h
  rcases fidx_fold_sound h with hf | hbase
  · exact hf
  · simp [mapGet] at hbase

theorem build_fidx_isSome {facs : List Facility} {f : Facility}
    (h : f ∈ facs) :
    (mapGet (buildIndexes facs).facilityIndex f.id).isSome = true := by
  rw [buildIndexes, foldl_buildStep_facilityIndex]
  exact fidx_fold_isSome_of_mem h

/-! Helper lemmas: posting-map characterizations. -/

theorem mem_postFold {fid : String} :
    ∀ {keys : List String} {m0 : List (String × List String)}
      {lab id : String},
      id ∈ (mapGet (keys.foldl (fun m k => addPosting m k fid) m0) lab).getD []
        ↔ id ∈ (mapGet m0 lab).getD [] ∨ (id = fid ∧ lab ∈ keys)
  | [], _, _, _ => by simp
  | k :: keys, m0, lab, id => by
    rw [List.foldl_cons, mem_postFold]
    rw [mapGet_addPosting]
    by_cases hl : lab = k
    · subst hl
      rw [if_pos rfl]
      simp only [Option.getD_some, mem_addSetList, List.mem_cons]
      tauto
    · rw [if_neg hl]
      simp only [List.mem_cons]
      tauto

theorem mem_idxFold (keysOf : Facility → List String) :
    ∀ {l : List Facility} {m0 : List (String × List String)}
      {lab id : String},
      id ∈
          (mapGet
            (l.foldl
              (fun m f => (keysOf f).foldl (fun m2 k => addPosting m2 k f.id) m)
              m0) lab).getD [] ↔
        id ∈ (mapGet m0 lab).getD [] ∨ ∃ f ∈ l, f.id = id ∧ lab ∈ keysOf f
  | [], _, _, _ => by simp
  | f :: l, m0, lab, id => by
    rw [List.foldl_cons, mem_idxFold keysOf, mem_postFold]
    constructor
    · rintro ((hbase | ⟨rfl, hk⟩) | ⟨g, hg, hgid, hgk⟩)
      · exact Or.inl hbase
      · exact Or.inr ⟨f, List.mem_cons_self f l, rfl, hk⟩
      · exact Or.inr ⟨g, List.mem_cons_of_mem f hg, hgid, hgk⟩
    · rintro (hbase | ⟨g, hg, hgid, hgk⟩)
      · exact Or.inl (Or.inl hbase)
      · rcases List.mem_cons.mp hg with rfl | hg
        · exact Or.inl (Or.inr ⟨hgid.symm, hgk⟩)
        · exact Or.inr ⟨g, hg, hgid, hgk⟩

theorem mem_nameIndex_build {facs : List Facility} {t id : String} :
    id ∈ (mapGet (buildIndexes facs).nameIndex t).getD [] ↔
      ∃ f ∈ facs, f.id = id ∧ t ∈ tokenizeName f.name := by
  rw [buildIndexes, foldl_buildStep_nameIndex,
    mem_idxFold fun f => tokenizeName f.name]
  simp [mapGet]

theorem amenity_fold_eq (f : Facility) (m : List (String × List String)) :
    f.facilities.foldl (fun m2 a => addPosting m2 (toLowerStr a) f.id) m =
      (f.facilities.map toLowerStr).foldl (fun m2 k => addPosting m2 k f.id) m :=
  (List.foldl_map toLowerStr (fun m2 k => addPosting m2 k f.id) f.facilities m).symm

theorem mem_amenityIndex_build {facs : List Facility} {lab id : String} :
    id ∈ (mapGet (buildIndexes facs).amenityIndex lab).getD [] ↔
      ∃ f ∈ facs, f.id = id ∧ lab ∈ f.facilities.map toLowerStr := by
  rw [buildIndexes, foldl_buildStep_amenityIndex]
  simp only [amenity_fold_eq]
  rw [mem_idxFold fun f => f.facilities.map toLowerStr]
  simp [mapGet]

/-! Helper lemmas: the matching-id collection of `searchByName`. -/

theorem mem_scanStep_of_mem {qt : String} {acc : List String}
    {e : String × List String} {x : String} (h : x ∈ acc) :
    x ∈ scanStep qt acc e := by
  unfold scanStep
  split_ifs
  · exact mem_foldl_addSetList.mpr (Or.inl h)
  · exact h

theorem mem_foldl_scanStep_of_mem :
    ∀ {nidx : List (String × List String)} {qt : String} {acc : List String}
      {x : String}, x ∈ acc → x ∈ nidx.foldl (scanStep qt) acc
  | [], _, _, _, h => h
  | _ :: nidx, _, _, _, h => by
    rw [List.foldl_cons]
    exact mem_foldl_scanStep_of_mem (mem_scanStep_of_mem h)

theorem mem_foldl_scanStep_entry :
    ∀ {nidx : List (String × List String)} {qt : String} {acc : List String}
      {x : String} {e : String × List String},
      e ∈ nidx → e.1 ≠ qt → qt.data <+: e.1.data → x ∈ e.2 →
        x ∈ nidx.foldl (scanStep qt) acc
  | [], _, _, _, e, he, _, _, _ => absurd he (List.not_mem_nil e)
  | e0 :: nidx, qt, acc, x, e, he, hne, hpre, hx => by
    rw [List.foldl_cons]
    rcases List.mem_cons.mp he with rfl | he
    · refine mem_foldl_scanStep_of_mem ?_
      unfold scanStep
      rw [if_pos ⟨hne, hpre⟩]
      exact mem_foldl_addSetList.mpr (Or.inr hx)
    · exact mem_foldl_scanStep_entry he hne hpre hx

theorem mem_collectForToken_exact {nidx : List (String × List String)}
    {acc : List String} {qt : String} {ids : List String} {x : String}
    (hg : mapGet nidx qt = some ids) (hx : x ∈ ids) :
    x ∈ collectForToken nidx acc qt := by
  unfold collectForToken
  rw [hg]
  exact mem_foldl_scanStep_of_mem (mem_foldl_addSetList.mpr (Or.inr hx))

theorem mem_collectForToken_scan {nidx : List (String × List String)}
    {acc : List String} {qt x : String} {e : String × List String}
    (he : e ∈ nidx) (hne : e.1 ≠ qt) (hpre : qt.data <+: e.1.data)
    (hx : x ∈ e.2) : x ∈ collectForToken nidx acc qt := by
  unfold collectForToken
  exact mem_foldl_scanStep_entry he hne hpre hx

theorem nodup_scanStep {qt : String} {acc : List String}
    {e : String × List String} (h : acc.Nodup) : (scanStep qt acc e).Nodup := by
  unfold scanStep
  split_ifs
  · exact nodup_foldl_addSetList h
  · exact h

theorem nodup_foldl_scanStep :
    ∀ {nidx : List (String × List String)} {qt : String} {acc : List String},
      acc.Nodup → (nidx.foldl (scanStep qt) acc).Nodup
  | [], _, _, h => h
  | _ :: nidx, _, _, h => by
    rw [List.foldl_cons]
    exact nodup_foldl_scanStep (nodup_scanStep h)

theorem nodup_collectForToken {nidx : List (String × List String)}
    {acc : List String} {qt : String} (h : acc.Nodup) :
    (collectForToken nidx acc qt).Nodup := by
  unfold collectForToken
  cases mapGet nidx qt with
  | none => exact nodup_foldl_scanStep h
  | some ids => exact nodup_foldl_scanStep (nodup_foldl_addSetList h)

theorem nodup_foldl_collectForToken :
    ∀ {qts : List String} {nidx : List (String × List String)}
      {acc : List String}, acc.Nodup →
        (qts.foldl (collectForToken nidx) acc).Nodup
  | [], _, _, h => h
  | _ :: qts, _, _, h => by
    rw [List.foldl_cons]
    exact nodup_foldl_collectForToken (nodup_collectForToken h)

theorem nodup_collectMatches {nidx : List (String × List String)}
    {qts : List String} : (collectMatches nidx qts).Nodup :=
  nodup_foldl_collectForToken List.nodup_nil

/-! Helper lemmas: result projection. -/

theorem projectResults_map_id {s : FacilityService}
    (hid : ∀ id f, mapGet s.facilityIndex id = some f → f.id = id) :
    ∀ {ids : List String},
      (projectResults s ids).map FacilitySearchResult.id =
        ids.filter fun id => (mapGet s.facilityIndex id).isSome
  | [] => rfl
  | id :: ids => by
    unfold projectResults
    rw [List.filterMap_cons, List.filter_cons]
    cases hg : mapGet s.facilityIndex id with
    | none =>
      simp only [Option.map_none', hg, Option.isSome_none, Bool.false_eq_true,
        if_false]
      exact projectResults_map_id hid
    | some f =>
      simp only [Option.map_some', hg, Option.isSome_some, if_true,
        List.map_cons]
      rw [hid id f hg]
      exact congrArg (id :: ·) (projectResults_map_id hid)

theorem mem_projectResults {s : FacilityService} {ids : List String}
    {r : FacilitySearchResult} (h : r ∈ projectResults s ids) :
    ∃ id ∈ ids, ∃ f, mapGet s.facilityIndex id = some f ∧
      r = ⟨f.id, f.name, f.address⟩ := by
  obtain ⟨id, hid, hr⟩ := List.mem_filterMap.mp h
  obtain ⟨f, hf, hrf⟩ := Option.map_eq_some'.mp hr
  exact ⟨id, hid, f, hf, hrf.symm⟩

/-! Helper lemmas: the amenity intersection. -/

theorem intersectLoop_eq_filter (s : FacilityService) :
    ∀ (ls : List String) (m : List String),
      intersectLoop s m ls =
        m.filter fun id =>
          ls.all fun lab => decide (id ∈ (mapGet s.amenityIndex lab).getD [])
  | [], m => by simp [intersectLoop]
  | lab :: ls, m => by
    cases hg : mapGet s.amenityIndex lab with
    | none =>
      simp only [intersectLoop, hg]
      symm
      rw [List.filter_eq_nil_iff]
      intro a _ h
      rw [List.all_cons, hg] at h
      simp at h
    | some ids =>
      by_cases hids : ids = []
      · subst hids
        simp only [intersectLoop, hg, if_true]
        symm
        rw [List.filter_eq_nil_iff]
        intro a _ h
        rw [List.all_cons, hg] at h
        simp at h
      · simp only [intersectLoop, hg, if_neg hids]
        have hsplit :
            (m.filter fun id =>
              (lab :: ls).all fun l =>
                decide (id ∈ (mapGet s.amenityIndex l).getD [])) =
            (m.filter fun id => decide (id ∈ ids)).filter fun id =>
              ls.all fun l => decide (id ∈ (mapGet s.amenityIndex l).getD []) := by
          rw [List.filter_filter]
          refine List.filter_congr fun id _ => ?_
          simp [hg, Bool.and_comm]
        rw [hsplit]
        by_cases hm : (m.filter fun id => decide (id ∈ ids)) = []
        · rw [if_pos hm, hm, List.filter_nil]
        · rw [if_neg hm, intersectLoop_eq_filter s ls]

theorem nodup_intersectLoop {s : FacilityService} {ls m : List String}
    (h : m.Nodup) : (intersectLoop s m ls).Nodup := by
  rw [intersectLoop_eq_filter]
  exact h.filter _

/-! Helper lemmas: the search comparator is a total preorder. -/

theorem tier_cmp_eq {q : String} {a b : FacilitySearchResult}
    (hA : toLowerStr a.name ≠ q) (hB : toLowerStr b.name ≠ q) :
    cmpResults q a b =
      if q.data <+: (toLowerStr a.name).data then
        (if q.data <+: (toLowerStr b.name).data then strCmp a.name b.name
          else -1)
      else
        (if q.data <+: (toLowerStr b.name).data then 1
          else strCmp a.name b.name) := by
  unfold cmpResults
  rw [if_neg hA, if_neg hB]
  by_cases pa : q.data <+: (toLowerStr a.name).data <;>
    by_cases pb : q.data <+: (toLowerStr b.name).data <;>
    simp [pa, pb]

theorem cmpResults_exact {q : String} {a : FacilitySearchResult}
    (hA : toLowerStr a.name = q) (b : FacilitySearchResult) :
    cmpResults q a b = -1 := by
  unfold cmpResults
  rw [if_pos hA]

theorem cmpResults_snd_exact {q : String} {a b : FacilitySearchResult}
    (hA : toLowerStr a.name ≠ q) (hB : toLowerStr b.name = q) :
    cmpResults q a b = 1 := by
  unfold cmpResults
  rw [if_neg hA, if_pos hB]

theorem cmpResults_total (q : String) (a b : FacilitySearchResult) :
    cmpResults q a b ≤ 0 ∨ cmpResults q b a ≤ 0 := by
  by_cases hA : toLowerStr a.name = q
  · left
    rw [cmpResults_exact hA]
    norm_num
  · by_cases hB : toLowerStr b.name = q
    · right
      rw [cmpResults_exact hB]
      norm_num
    · rw [tier_cmp_eq hA hB, tier_cmp_eq hB hA]
      by_cases pa : q.data <+: (toLowerStr a.name).data <;>
        by_cases pb : q.data <+: (toLowerStr b.name).data
      · rw [if_pos pa, if_pos pb, if_pos pb, if_pos pa]
        exact strCmp_total a.name b.name
      · left
        rw [if_pos pa, if_neg pb]
        norm_num
      · right
        rw [if_pos pb, if_neg pa]
        norm_num
      · rw [if_neg pa, if_neg pb, if_neg pb, if_neg pa]
        exact strCmp_total a.name b.name

theorem cmpResults_trans {q : String} {a b c : FacilitySearchResult}
    (h1 : cmpResults q a b ≤ 0) (h2 : cmpResults q b c ≤ 0) :
    cmpResults q a c ≤ 0 := by
  by_cases hA : toLowerStr a.name = q
  · rw [cmpResults_exact hA]
    norm_num
  · have hB : toLowerStr b.name ≠ q := by
      intro hB
      rw [cmpResults_snd_exact hA hB] at h1
      norm_num at h1
    have hC : toLowerStr c.name ≠ q := by
      intro hC
      rw [cmpResults_snd_exact hB hC] at h2
      norm_num at h2
    rw [tier_cmp_eq hA hB] at h1
    rw [tier_cmp_eq hB hC] at h2
    rw [tier_cmp_eq hA hC]
    by_cases pa : q.data <+: (toLowerStr a.name).data <;>
      by_cases pb : q.data <+: (toLowerStr b.name).data <;>
      by_cases pc : q.data <+: (toLowerStr c.name).data
    · rw [if_pos pa, if_pos pb] at h1
      rw [if_pos pb, if_pos pc] at h2
      rw [if_pos pa, if_pos pc]
      exact strCmp_trans h1 h2
    · rw [if_pos pa, if_neg pc]
      norm_num
    · rw [if_neg pb, if_pos pc] at h2
      norm_num at h2
    · rw [if_pos pa, if_neg pc]
      norm_num
    · rw [if_neg pa, if_pos pb] at h1
      norm_num at h1
    · rw [if_neg pa, if_pos pb] at h1
      norm_num at h1
    · rw [if_neg pb, if_pos pc] at h2
      norm_num at h2
    · rw [if_neg pa, if_neg pb] at h1
      rw [if_neg pb, if_neg pc] at h2
      rw [if_neg pa, if_neg pc]
      exact strCmp_trans h1 h2

/-! Helper lemmas: posting sets of the built index are duplicate-free. -/

theorem vals_nodup_addPosting :
    ∀ {m : List (String × List String)} {k id : String},
      (∀ p ∈ m, (p.2 : List String).Nodup) →
        ∀ p ∈ addPosting m k id, (p.2 : List String).Nodup
  | [], k, id, _, p, hp => by
    simp only [addPosting, List.mem_singleton] at hp
    subst hp
    exact List.nodup_singleton id
  | (k0, v0) :: m, k, id, h, p, hp => by
    by_cases h0 : k0 = k
    · rw [show addPosting ((k0, v0) :: m) k id = (k0, addSetList v0 id) :: m by
        simp [addPosting, h0]] at hp
      rcases List.mem_cons.mp hp with rfl | hp
      · exact nodup_addSetList (h (k0, v0) (List.mem_cons_self _ _)) id
      · exact h p (List.mem_cons_of_mem _ hp)
    · rw [show addPosting ((k0, v0) :: m) k id = (k0, v0) :: addPosting m k id by
        simp [addPosting, h0]] at hp
      rcases List.mem_cons.mp hp with rfl | hp
      · exact h (k0, v0) (List.mem_cons_self _ _)
      · exact vals_nodup_addPosting
          (fun p2 hp2 => h p2 (List.mem_cons_of_mem _ hp2)) p hp

theorem vals_nodup_foldl_addPosting {α : Type} {key : α → String}
    {fid : String} :
    ∀ {l : List α} {m : List (String × List String)},
      (∀ p ∈ m, (p.2 : List String).Nodup) →
        ∀ p ∈ l.foldl (fun m2 a => addPosting m2 (key a) fid) m,
          (p.2 : List String).Nodup
  | [], _, h, p, hp => h p hp
  | _ :: l, _, h, p, hp => by
    rw [List.foldl_cons] at hp
    exact vals_nodup_foldl_addPosting (vals_nodup_addPosting h) p hp

theorem vals_nodup_build_amenity :
    ∀ {l : List Facility} {m : List (String × List String)},
      (∀ p ∈ m, (p.2 : List String).Nodup) →
        ∀ p ∈
          l.foldl
            (fun m2 f =>
              f.facilities.foldl
                (fun m3 a => addPosting m3 (toLowerStr a) f.id) m2) m,
          (p.2 : List String).Nodup
  | [], _, h, p, hp => h p hp
  | f :: l, _, h, p, hp => by
    rw [List.foldl_cons] at hp
    exact vals_nodup_build_amenity
      (fun p2 hp2 =>
        @vals_nodup_foldl_addPosting String toLowerStr f.id _ _ h p2 hp2)
      p hp

theorem build_amenity_posting_nodup {facs : List Facility} {lab : String}
    {ids : List String}
    (hg : mapGet (buildIndexes facs).amenityIndex lab = some ids) :
    ids.Nodup := by
  rw [buildIndexes, foldl_buildStep_amenityIndex] at hg
  exact vals_nodup_build_amenity (by simp) (lab, ids) (mapGet_mem hg)

/-! Helper lemmas: filterByAmenities on the built index. -/

theorem build_project_ids {facs : List Facility} {ids : List String}
    (h : ∀ id ∈ ids, ∃ f ∈ facs, f.id = id) :
    (projectResults (buildIndexes facs) ids).map FacilitySearchResult.id =
      ids := by
  rw [projectResults_map_id fun id g hg => (build_fidx_sound hg).2]
  rw [List.filter_eq_self]
  intro id hid
  obtain ⟨f, hf, rfl⟩ := h id hid
  exact build_fidx_isSome hf

theorem mem_filterIds_single {facs : List Facility} {a id : String} :
    id ∈ (filterByAmenities (buildIndexes facs) [a]).map
        FacilitySearchResult.id ↔
      id ∈ (mapGet (buildIndexes facs).amenityIndex (toLowerStr a)).getD [] := by
  cases hg : mapGet (buildIndexes facs).amenityIndex (toLowerStr a) with
  | none => simp [filterByAmenities, hg]
  | some cand =>
    by_cases hc : cand = []
    · subst hc
      simp [filterByAmenities, hg]
    · have hres : ∀ id2 ∈ cand, ∃ f ∈ facs, f.id = id2 := by
        intro id2 hid2
        have : id2 ∈ (mapGet (buildIndexes facs).amenityIndex
            (toLowerStr a)).getD [] := by rw [hg]; exact hid2
        obtain ⟨f, hf, hfid, _⟩ := mem_amenityIndex_build.mp this
        exact ⟨f, hf, hfid⟩
      have hloop : intersectLoop (buildIndexes facs) cand ([] : List String) =
          cand := rfl
      simp only [filterByAmenities, hg, if_neg hc, List.map_nil, hloop,
        Option.getD_some]
      rw [build_project_ids hres]

theorem mem_filterIds_pair {facs : List Facility} {a b id : String} :
    id ∈ (filterByAmenities (buildIndexes facs) [a, b]).map
        FacilitySearchResult.id ↔
      id ∈ (mapGet (buildIndexes facs).amenityIndex (toLowerStr a)).getD [] ∧
      id ∈ (mapGet (buildIndexes facs).amenityIndex (toLowerStr b)).getD [] := by
  cases hg : mapGet (buildIndexes facs).amenityIndex (toLowerStr a) with
  | none => simp [filterByAmenities, hg]
  | some cand =>
    by_cases hc : cand = []
    · subst hc
      simp [filterByAmenities, hg]
    · have hloop :
          intersectLoop (buildIndexes facs) cand [toLowerStr b] =
            cand.filter fun id2 =>
              decide (id2 ∈
                (mapGet (buildIndexes facs).amenityIndex (toLowerStr b)).getD
                  []) := by
        rw [intersectLoop_eq_filter]
        refine List.filter_congr fun id2 _ => ?_
        simp
      have hres : ∀ id2 ∈ cand.filter fun id2 =>
            decide (id2 ∈
              (mapGet (buildIndexes facs).amenityIndex (toLowerStr b)).getD []),
          ∃ f ∈ facs, f.id = id2 := by
        intro id2 hid2
        have hid2c : id2 ∈ cand := (List.mem_filter.mp hid2).1
        have : id2 ∈ (mapGet (buildIndexes facs).amenityIndex
            (toLowerStr a)).getD [] := by rw [hg]; exact hid2c
        obtain ⟨f, hf, hfid, _⟩ := mem_amenityIndex_build.mp this
        exact ⟨f, hf, hfid⟩
      simp only [filterByAmenities, hg, if_neg hc, List.map_cons, List.map_nil,
        hloop, Option.getD_some]
      rw [build_project_ids hres]
      rw [List.mem_filter]
      simp

theorem filterByAmenities_congr_lower {s : FacilityService}
    {ls1 ls2 : List String} (h : ls1.map toLowerStr = ls2.map toLowerStr) :
    filterByAmenities s ls1 = filterByAmenities s ls2 := by
  cases ls1 with
  | nil =>
    cases ls2 with
    | nil => rfl
    | cons b bs => simp at h
  | cons a as =>
    cases ls2 with
    | nil => simp at h
    | cons b bs =>
      simp only [List.map_cons, List.cons.injEq] at h
      obtain ⟨hab, hasbs⟩ := h
      simp only [filterByAmenities, hab, hasbs]

theorem filterByAmenities_unknown {facs : List Facility} {ls : List String}
    {l : String} (hl : l ∈ ls)
    (hunk : ∀ f ∈ facs, ∀ a2 ∈ f.facilities, toLowerStr a2 ≠ toLowerStr l) :
    filterByAmenities (buildIndexes facs) ls = [] := by
  have hpost :
      (mapGet (buildIndexes facs).amenityIndex (toLowerStr l)).getD [] = [] := by
    rw [List.eq_nil_iff_forall_not_mem]
    intro id hid
    rw [mem_amenityIndex_build] at hid
    obtain ⟨f, hf, _, hlab⟩ := hid
    obtain ⟨a2, ha2, ha2eq⟩ := List.mem_map.mp hlab
    exact hunk f hf a2 ha2 ha2eq
  cases ls with
  | nil => rfl
  | cons a0 rest =>
    cases hg : mapGet (buildIndexes facs).amenityIndex (toLowerStr a0) with
    | none => simp [filterByAmenities, hg]
    | some cand =>
      by_cases hc : cand = []
      · subst hc
        simp [filterByAmenities, hg]
      · rcases List.mem_cons.mp hl with rfl | hl
        · rw [hg] at hpost
          exact absurd hpost hc
        · simp only [filterByAmenities, hg, if_neg hc]
          rw [intersectLoop_eq_filter]
          have hfilter : (cand.filter fun id =>
              (rest.map toLowerStr).all fun lab =>
                decide (id ∈
                  (mapGet (buildIndexes facs).amenityIndex lab).getD [])) =
              [] := by
            rw [List.filter_eq_nil_iff]
            intro id _ hall
            have := List.all_eq_true.mp hall (toLowerStr l)
              (List.mem_map_of_mem toLowerStr hl)
            rw [hpost] at this
            simp at this
          rw [hfilter]
          rfl

/-! Helper lemmas: getById and duplicate identifiers. -/

theorem fidx_fold_unchanged :
    ∀ {l : List Facility} {m0 : List (String × Facility)} {id : String},
      (∀ g ∈ l, g.id ≠ id) →
        mapGet (l.foldl (fun m g => mapSet m g.id g) m0) id = mapGet m0 id
  | [], _, _, _ => rfl
  | g :: l, m0, id, h => by
    rw [List.foldl_cons,
      fidx_fold_unchanged fun g2 hg2 => h g2 (List.mem_cons_of_mem g hg2),
      mapGet_mapSet_ne fun he => h g (List.mem_cons_self g l) he.symm]

/-! Helper lemmas: the state-threaded operations agree with the pure
embedding and leave the state unchanged. -/

theorem getByIdST_eq (s : FacilityService) (id : String) :
    getByIdST s id = (s, getById s id) := by
  unfold getByIdST getFacilityST getById
  split_ifs <;> rfl

theorem projectResultsST_eq :
    ∀ (s : FacilityService) (ids : List String),
      projectResultsST s ids = (s, projectResults s ids)
  | _, [] => rfl
  | s, id :: ids => by
    cases hg : mapGet s.facilityIndex id with
    | none =>
      have h1 : projectResultsST s (id :: ids) = projectResultsST s ids := by
        simp [projectResultsST, getFacilityST, hg]
      rw [h1, projectResultsST_eq s ids]
      simp [projectResults, List.filterMap_cons, hg]
    | some f =>
      have h1 : projectResultsST s (id :: ids) =
          ((projectResultsST s ids).1,
            ⟨f.id, f.name, f.address⟩ :: (projectResultsST s ids).2) := by
        simp [projectResultsST, getFacilityST, hg]
      rw [h1, projectResultsST_eq s ids]
      simp [projectResults, List.filterMap_cons, hg]

theorem intersectLoopST_eq :
    ∀ (ls : List String) (s : FacilityService) (m : List String),
      intersectLoopST s m ls = (s, intersectLoop s m ls)
  | [], _, _ => rfl
  | lab :: ls, s, m => by
    cases hg : mapGet s.amenityIndex lab with
    | none => simp [intersectLoopST, intersectLoop, getAmenityST, hg]
    | some ids =>
      by_cases hids : ids = []
      · simp [intersectLoopST, intersectLoop, getAmenityST, hg, hids]
      · simp only [intersectLoopST, intersectLoop, getAmenityST, hg,
          if_neg hids]
        by_cases hm : (m.filter fun id => decide (id ∈ ids)) = []
        · simp [hm]
        · simp only [if_neg hm]
          exact intersectLoopST_eq ls s _

theorem searchByNameST_eq (s : FacilityService) (q : String) :
    searchByNameST s q = (s, searchByName s q) := by
  unfold searchByNameST searchByName
  split_ifs with h
  · rfl
  · rw [projectResultsST_eq]

theorem filterByAmenitiesST_eq (s : FacilityService) (ls : List String) :
    filterByAmenitiesST s ls = (s, filterByAmenities s ls) := by
  cases ls with
  | nil => rfl
  | cons a0 rest =>
    cases hg : mapGet s.amenityIndex (toLowerStr a0) with
    | none => simp [filterByAmenitiesST, filterByAmenities, getAmenityST, hg]
    | some cand =>
      by_cases hc : cand = []
      · simp [filterByAmenitiesST, filterByAmenities, getAmenityST, hg, hc]
      · simp only [filterByAmenitiesST, filterByAmenities, getAmenityST, hg,
          if_neg hc, intersectLoopST_eq, projectResultsST_eq]

/-! Helper lemmas: shape of results over the built index. -/

theorem mem_projectResults_build {facs : List Facility} {ids : List String}
    {r : FacilitySearchResult}
    (h : r ∈ projectResults (buildIndexes facs) ids) :
    ∃ f ∈ facs, f.id = r.id ∧ f.name = r.name ∧ f.address = r.address := by
  obtain ⟨id0, _, f, hg, rfl⟩ := mem_projectResults h
  obtain ⟨hf, _⟩ := build_fidx_sound hg
  exact ⟨f, hf, rfl, rfl, rfl⟩

theorem nodup_projectResults_build {facs : List Facility} {ids : List String}
    (h : ids.Nodup) :
    ((projectResults (buildIndexes facs) ids).map
      FacilitySearchResult.id).Nodup := by
  rw [projectResults_map_id fun id g hg => (build_fidx_sound hg).2]
  exact h.filter _

theorem filter_results_shape (facs : List Facility) (ls : List String) :
    ∃ ids : List String, ids.Nodup ∧
      filterByAmenities (buildIndexes facs) ls =
        projectResults (buildIndexes facs) ids := by
  cases ls with
  | nil => exact ⟨[], List.nodup_nil, rfl⟩
  | cons a0 rest =>
    cases hg : mapGet (buildIndexes facs).amenityIndex (toLowerStr a0) with
    | none =>
      exact ⟨[], List.nodup_nil, by simp [filterByAmenities, hg, projectResults]⟩
    | some cand =>
      by_cases hc : cand = []
      · exact ⟨[], List.nodup_nil,
          by simp [filterByAmenities, hg, hc, projectResults]⟩
      · refine ⟨intersectLoop (buildIndexes facs) cand (rest.map toLowerStr),
          nodup_intersectLoop (build_amenity_posting_nodup hg), ?_⟩
        simp [filterByAmenities, hg, hc]

/-! The claims. -/

/-- C1, counterexample. With two distinct records both named "Gym" and
the query "g", both land in the starts-with tier with equal display
names, so the claimed order (ties broken by ascending identifier) puts
the record with identifier "a" first; the implementation returns the
record with identifier "b" first because its comparator never reads
identifiers, keeping match-set insertion order. -/
theorem searchByName_ranking_not_id_tiebreak_cex :
    searchByName (buildIndexes [⟨"b", "Gym", "x", []⟩, ⟨"a", "Gym", "y", []⟩])
        "g" =
      [⟨"b", "Gym", "x"⟩, ⟨"a", "Gym", "y"⟩] ∧
    specRankLt "g" ⟨"a", "Gym", "y"⟩ ⟨"b", "Gym", "x"⟩ ∧
    ¬ specRankLt "g" ⟨"b", "Gym", "x"⟩ ⟨"a", "Gym", "y"⟩ := by decide

/-- C1, amended. The output of searchByName is totally preordered by the
implemented comparator: exact lowercase-name matches first, then names
whose lowercase form starts with the normalized query, then the rest,
with display-name comparison inside the last two tiers; ties (equal
comparator value, in particular equal names) are not broken by
identifier. -/
theorem searchByName_sorted_by_comparator (s : FacilityService) (q : String) :
    List.Sorted (fun a b => cmpResults (trimStr (toLowerStr q)) a b ≤ 0)
      (searchByName s q) := by
  unfold searchByName
  split_ifs with h
  · exact List.sorted_nil
  · haveI : IsTotal FacilitySearchResult
        (fun a b => cmpResults (trimStr (toLowerStr q)) a b ≤ 0) :=
      ⟨cmpResults_total (trimStr (toLowerStr q))⟩
    haveI : IsTrans FacilitySearchResult
        (fun a b => cmpResults (trimStr (toLowerStr q)) a b ≤ 0) :=
      ⟨fun _ _ _ => cmpResults_trans⟩
    exact List.sorted_insertionSort _ _

/-- C2. For every indexed record set and amenity labels a and b, the
identifier set returned by filterByAmenities [a, b] is the intersection
of the identifier sets returned by the two single-label queries. -/
theorem filterByAmenities_pair_inter (facs : List Facility) (a b : String) :
    ((filterByAmenities (buildIndexes facs) [a, b]).map
        FacilitySearchResult.id).toFinset =
      ((filterByAmenities (buildIndexes facs) [a]).map
        FacilitySearchResult.id).toFinset ∩
      ((filterByAmenities (buildIndexes facs) [b]).map
        FacilitySearchResult.id).toFinset := by
  ext id
  simp only [List.mem_toFinset, Finset.mem_inter, mem_filterIds_pair,
    mem_filterIds_single]

/-- C3. For every record in the index, every token of its tokenized
name, and every non-empty prefix of that token, searching for that
prefix returns a result set containing the record identifier. -/
theorem searchByName_prefix_complete {facs : List Facility} {f : Facility}
    {t p : String} (hf : f ∈ facs) (ht : t ∈ tokenizeName f.name)
    (hp : p.data ≠ []) (hpre : p.data <+: t.data) :
    f.id ∈ (searchByName (buildIndexes facs) p).map FacilitySearchResult.id := by
  obtain ⟨htne, hchars⟩ := token_chars ht
  have hsub : ∀ c ∈ p.data, c ∈ t.data := fun c hc => hpre.subset hc
  have hpw : ∀ c ∈ p.data, isWs c = false := fun c hc => (hchars c (hsub c hc)).1
  have hlow : toLowerStr p = p :=
    String.ext (map_self_of_fixed fun c hc => (hchars c (hsub c hc)).2)
  have htrim : trimStr p = p := String.ext (trimList_eq_self hpw)
  have hpne : p ≠ "" := fun h => hp (by rw [h])
  have hcond : ¬ (p = "" ∨ trimStr p = "") := by
    rintro (h | h)
    · exact hpne h
    · rw [htrim] at h
      exact hpne h
  have hsplit : splitTokens p = [p] := by
    unfold splitTokens
    rw [words_all_nonWs hp hpw]
    rfl
  have hpost : f.id ∈ (mapGet (buildIndexes facs).nameIndex t).getD [] :=
    mem_nameIndex_build.mpr ⟨f, hf, rfl, ht⟩
  obtain ⟨ids, hg, hin⟩ : ∃ ids,
      mapGet (buildIndexes facs).nameIndex t = some ids ∧ f.id ∈ ids := by
    cases hg : mapGet (buildIndexes facs).nameIndex t with
    | none => rw [hg] at hpost; simp at hpost
    | some ids => exact ⟨ids, rfl, by rw [hg] at hpost; exact hpost⟩
  have hmem : f.id ∈ collectMatches (buildIndexes facs).nameIndex [p] := by
    show f.id ∈ collectForToken (buildIndexes facs).nameIndex [] p
    by_cases hpt : t = p
    · subst hpt
      exact mem_collectForToken_exact hg hin
    · exact @mem_collectForToken_scan (buildIndexes facs).nameIndex [] p f.id
        (t, ids) (mapGet_mem hg) hpt hpre hin
  unfold searchByName
  rw [if_neg hcond, hlow, htrim, hsplit]
  have hproj : f.id ∈ (projectResults (buildIndexes facs)
      (collectMatches (buildIndexes facs).nameIndex [p])).map
        FacilitySearchResult.id := by
    rw [projectResults_map_id fun id g hg2 => (build_fidx_sound hg2).2]
    rw [List.mem_filter]
    exact ⟨hmem, build_fidx_isSome hf⟩
  obtain ⟨r0, hr0, hr0id⟩ := List.mem_map.mp hproj
  exact List.mem_map.mpr ⟨r0, (List.mem_insertionSort _).mpr hr0, hr0id⟩

/-- C3, witness: "ci" is a prefix of the token "city" of the indexed
record, and searching "ci" finds it. -/
theorem searchByName_prefix_complete_witness :
    "f1" ∈ (searchByName (buildIndexes [⟨"f1", "City Fitness", "addr", []⟩])
      "ci").map FacilitySearchResult.id :=
  @searchByName_prefix_complete [⟨"f1", "City Fitness", "addr", []⟩]
    ⟨"f1", "City Fitness", "addr", []⟩ "city" "ci" (by decide) (by decide)
    (by decide) (by decide)

/-- C4. Evaluation of filterByAmenities at the input on which the
source performs its delete-during-iteration step (the candidate "f2"
lacking "Sauna" is deleted from the set being iterated): the surviving
result is the single record holding both amenities. -/
theorem filterByAmenities_delete_while_iterating_eval :
    filterByAmenities
      (buildIndexes [⟨"f1", "Gym A", "x", ["Pool", "Sauna"]⟩,
        ⟨"f2", "Gym B", "y", ["Pool"]⟩]) ["Pool", "Sauna"] =
      [⟨"f1", "Gym A", "x"⟩] := by decide

/-- C5, counterexample. Two records share the identifier "f1": the
second silently overwrites the first in the identifier index (getById
returns the second record, not the first admitted one), and getCount
counts both records rather than the single distinct identifier. -/
theorem getById_duplicate_last_wins_cex :
    getById (buildIndexes [⟨"f1", "A", "x", []⟩, ⟨"f1", "B", "y", []⟩]) "f1" =
      some ⟨"f1", "B", "y", []⟩ ∧
    some (⟨"f1", "B", "y", []⟩ : Facility) ≠
      some (⟨"f1", "A", "x", []⟩ : Facility) ∧
    getCount (buildIndexes [⟨"f1", "A", "x", []⟩, ⟨"f1", "B", "y", []⟩]) = 2 := by
  decide

/-- C5, amended. Duplicate identifiers are not skipped: the last record
carrying an identifier wins the identifier index (getById returns it),
and the stored record count is the total number of input records,
duplicates included. -/
theorem buildIndexes_duplicate_overwrites (l1 l2 : List Facility)
    (f : Facility) (hne : f.id ≠ "") (h2 : ∀ g ∈ l2, g.id ≠ f.id) :
    getById (buildIndexes (l1 ++ f :: l2)) f.id = some f ∧
    getCount (buildIndexes (l1 ++ f :: l2)) = (l1 ++ f :: l2).length := by
  constructor
  · unfold getById
    rw [if_neg hne, buildIndexes, foldl_buildStep_facilityIndex,
      List.foldl_append, List.foldl_cons, fidx_fold_unchanged h2,
      mapGet_mapSet_self]
  · unfold getCount
    rw [buildIndexes_facilities]

/-- C5, amended witness at a concrete duplicated store. -/
theorem buildIndexes_duplicate_overwrites_witness :
    getById (buildIndexes ([⟨"f1", "A", "x", []⟩] ++
      (⟨"f1", "B", "y", []⟩ : Facility) :: [])) "f1" =
      some ⟨"f1", "B", "y", []⟩ ∧
    getCount (buildIndexes ([⟨"f1", "A", "x", []⟩] ++
      (⟨"f1", "B", "y", []⟩ : Facility) :: [])) =
      (([⟨"f1", "A", "x", []⟩] : List Facility) ++
        (⟨"f1", "B", "y", []⟩ : Facility) :: []).length :=
  buildIndexes_duplicate_overwrites
    ([⟨"f1", "A", "x", []⟩] : List Facility) ([] : List Facility)
    (⟨"f1", "B", "y", []⟩ : Facility) (by decide) (by decide)

/-- C6. The token-scan cost of searchByName at a fixed two-character
query grows with the number of distinct indexed tokens: 3 scan steps on
a three-token vocabulary and 6 on a six-token vocabulary, while the
query result is empty and identical in both cases. -/
theorem searchScanCount_grows_with_vocabulary :
    searchScanCount (buildIndexes [⟨"1", "alpha", "", []⟩,
      ⟨"2", "beta", "", []⟩, ⟨"3", "gamma", "", []⟩]) "zz" = 3 ∧
    searchScanCount (buildIndexes [⟨"1", "alpha", "", []⟩,
      ⟨"2", "beta", "", []⟩, ⟨"3", "gamma", "", []⟩, ⟨"4", "delta", "", []⟩,
      ⟨"5", "epsilon", "", []⟩, ⟨"6", "zeta", "", []⟩]) "zz" = 6 ∧
    searchByName (buildIndexes [⟨"1", "alpha", "", []⟩,
      ⟨"2", "beta", "", []⟩, ⟨"3", "gamma", "", []⟩]) "zz" = [] ∧
    searchByName (buildIndexes [⟨"1", "alpha", "", []⟩,
      ⟨"2", "beta", "", []⟩, ⟨"3", "gamma", "", []⟩, ⟨"4", "delta", "", []⟩,
      ⟨"5", "epsilon", "", []⟩, ⟨"6", "zeta", "", []⟩]) "zz" = [] := by decide

/-- C7, counterexample. The stored identifier "f1" resolves, but the
whitespace-padded identifier " f1 " does not: getById performs no
trimming. -/
theorem getById_no_trim_cex :
    getById (buildIndexes [⟨"f1", "Gym", "x", []⟩]) " f1 " = none ∧
    getById (buildIndexes [⟨"f1", "Gym", "x", []⟩]) "f1" =
      some ⟨"f1", "Gym", "x", []⟩ := by decide

/-- C7, amended. getById uses the identifier verbatim: the empty
identifier and identifiers matching no stored record yield the
not-found value (never a fault), and a successful lookup returns a
stored record carrying exactly the queried identifier. -/
theorem getById_verbatim_lookup (facs : List Facility) (id : String) :
    (id = "" → getById (buildIndexes facs) id = none) ∧
    ((∀ f ∈ facs, f.id ≠ id) → getById (buildIndexes facs) id = none) ∧
    (∀ r, getById (buildIndexes facs) id = some r → r ∈ facs ∧ r.id = id) := by
  refine ⟨fun h => by simp [getById, h], fun h => ?_, fun r hr => ?_⟩
  · unfold getById
    split_ifs with h0
    · rfl
    · cases hg : mapGet (buildIndexes facs).facilityIndex id with
      | none => rfl
      | some f =>
        obtain ⟨hf, hfid⟩ := build_fidx_sound hg
        exact absurd hfid (h f hf)
  · unfold getById at hr
    split_ifs at hr with h0
    exact build_fidx_sound hr

/-- C7, amended witness: an unknown identifier and the empty identifier
both miss. -/
theorem getById_verbatim_lookup_witness :
    getById (buildIndexes [⟨"f1", "Gym", "x", []⟩]) "nope" = none ∧
    getById (buildIndexes [⟨"f1", "Gym", "x", []⟩]) "" = none :=
  ⟨(getById_verbatim_lookup [⟨"f1", "Gym", "x", []⟩] "nope").2.1 (by decide),
    (getById_verbatim_lookup [⟨"f1", "Gym", "x", []⟩] "").1 rfl⟩

/-- C8, counterexample. A label padded with surrounding whitespace is
not normalized to the stored label: querying " pool " yields the empty
result while "pool" yields the record, so whitespace-differing labels
do not produce the same identifier set. -/
theorem filterByAmenities_whitespace_cex :
    filterByAmenities (buildIndexes [⟨"f1", "Gym", "x", ["Pool"]⟩])
      [" pool "] = [] ∧
    filterByAmenities (buildIndexes [⟨"f1", "Gym", "x", ["Pool"]⟩]) ["pool"] =
      [⟨"f1", "Gym", "x"⟩] := by decide

/-- C8, amended. Amenity lookup is case-insensitive only: labels are
lowercased (not whitespace-trimmed) at both build and query time, so
query label lists equal after lowercasing give identical results, a
label unknown after lowercasing forces an empty result, and a
single-label query finds exactly the records holding the label up to
case. -/
theorem filterByAmenities_case_insensitive (s : FacilityService)
    (facs : List Facility) (ls1 ls2 ls : List String) (l : String) :
    (ls1.map toLowerStr = ls2.map toLowerStr →
      filterByAmenities s ls1 = filterByAmenities s ls2) ∧
    (l ∈ ls →
      (∀ f ∈ facs, ∀ a2 ∈ f.facilities, toLowerStr a2 ≠ toLowerStr l) →
        filterByAmenities (buildIndexes facs) ls = []) ∧
    (∀ id2, id2 ∈ (filterByAmenities (buildIndexes facs) [l]).map
        FacilitySearchResult.id ↔
      ∃ f ∈ facs, f.id = id2 ∧ toLowerStr l ∈ f.facilities.map toLowerStr) :=
  ⟨fun h => filterByAmenities_congr_lower h,
    fun hl hunk => filterByAmenities_unknown hl hunk,
    fun _ => mem_filterIds_single.trans mem_amenityIndex_build⟩

/-- C8, amended witness: "POOL" and "pool" give identical results, and
the unknown label "sauna" gives the empty result. -/
theorem filterByAmenities_case_insensitive_witness :
    filterByAmenities (buildIndexes [⟨"f1", "Gym", "x", ["Pool"]⟩]) ["POOL"] =
      filterByAmenities (buildIndexes [⟨"f1", "Gym", "x", ["Pool"]⟩])
        ["pool"] ∧
    filterByAmenities (buildIndexes [⟨"f1", "Gym", "x", ["Pool"]⟩])
      ["sauna"] = [] :=
  ⟨(filterByAmenities_case_insensitive
      (buildIndexes [⟨"f1", "Gym", "x", ["Pool"]⟩])
      [⟨"f1", "Gym", "x", ["Pool"]⟩] ["POOL"] ["pool"] ["sauna"] "sauna").1
      (by decide),
    (filterByAmenities_case_insensitive
      (buildIndexes [⟨"f1", "Gym", "x", ["Pool"]⟩])
      [⟨"f1", "Gym", "x", ["Pool"]⟩] ["POOL"] ["pool"] ["sauna"] "sauna").2.1
      (by decide) (by decide)⟩

/-- C9. Every query operation is a pure read: the state-threaded
embeddings of searchByName, filterByAmenities and getById return the
service state unchanged (record store, name index and amenity index
included — the amenity intersection filters only the local copy of the
first posting set) and compute the same results as the pure
embedding. -/
theorem queries_preserve_state (s : FacilityService) (q : String)
    (ls : List String) (id : String) :
    (searchByNameST s q).1 = s ∧ (searchByNameST s q).2 = searchByName s q ∧
    (filterByAmenitiesST s ls).1 = s ∧
    (filterByAmenitiesST s ls).2 = filterByAmenities s ls ∧
    (getByIdST s id).1 = s ∧ (getByIdST s id).2 = getById s id := by
  rw [searchByNameST_eq, filterByAmenitiesST_eq, getByIdST_eq]
  exact ⟨rfl, rfl, rfl, rfl, rfl, rfl⟩

/-- C10. Result identifiers of searchByName and filterByAmenities are
duplicate-free, and every returned projection is the projection of a
record admitted in the store. -/
theorem results_nodup_and_in_store (facs : List Facility) (q : String)
    (ls : List String) :
    ((searchByName (buildIndexes facs) q).map FacilitySearchResult.id).Nodup ∧
    (∀ r ∈ searchByName (buildIndexes facs) q,
      ∃ f ∈ facs, f.id = r.id ∧ f.name = r.name ∧ f.address = r.address) ∧
    ((filterByAmenities (buildIndexes facs) ls).map
      FacilitySearchResult.id).Nodup ∧
    (∀ r ∈ filterByAmenities (buildIndexes facs) ls,
      ∃ f ∈ facs, f.id = r.id ∧ f.name = r.name ∧ f.address = r.address) := by
  refine ⟨?_, ?_, ?_, ?_⟩
  · unfold searchByName
    split_ifs
    · simp
    · exact (((List.perm_insertionSort _ _).map
        FacilitySearchResult.id).nodup_iff).mpr
        (nodup_projectResults_build nodup_collectMatches)
  · intro r hr
    unfold searchByName at hr
    split_ifs at hr
    · simp at hr
    · exact mem_projectResults_build ((List.mem_insertionSort _).mp hr)
  · obtain ⟨ids, hnd, heq⟩ := filter_results_shape facs ls
    rw [heq]
    exact nodup_projectResults_build hnd
  · intro r hr
    obtain ⟨ids, _, heq⟩ := filter_results_shape facs ls
    rw [heq] at hr
    exact mem_projectResults_build hr
